import Mathlib

/-!
Verification of the retrieval-and-novelty core of the Deco3000-a3 slide
generator.  The Python sources are shallowly embedded: strings become
`List Char`, Python slice / `rfind` / `strip` / `split` semantics are
reproduced exactly (including negative-index adjustment), the unbounded
`while` loop of the chunker becomes a fuel-indexed recursion, the FAISS
flat inner-product index becomes a list of exact rational vectors, and
the external embedding model (`SentenceTransformer.encode` composed with
`faiss.normalize_L2`) and `difflib.SequenceMatcher.ratio` are abstract
function parameters.  Floating-point arithmetic is idealised as exact
rational arithmetic.
-/

namespace S2P

/-- Python whitespace characters (`str.strip`, `str.split` with no
argument); the ASCII fragment, which is what the sources feed in. -/
def isPySpace (c : Char) : Bool :=
  c == ' ' || c == '\t' || c == '\n' || c == '\r' || c == '\x0b' || c == '\x0c'

/-- Python `str.strip()`: drop whitespace from both ends. -/
def pyStrip (s : List Char) : List Char :=
  ((s.dropWhile isPySpace).reverse.dropWhile isPySpace).reverse

/-- Adjust one Python slice index: a negative index counts from the end,
then the result is clamped into `[0, len]`. -/
def clampIdx (len : Nat) (i : Int) : Nat :=
  if i < 0 then min ((len : Int) + i).toNat len else min i.toNat len

/-- Python slicing `s[a:b]` with the usual negative-index adjustment. -/
def pySlice (s : List Char) (a b : Int) : List Char :=
  (s.take (clampIdx s.length b)).drop (clampIdx s.length a)

/-- Python `s.rfind(c, a, b)` for a one-character needle: the greatest
position `p` with `a' ≤ p < b'` (indices adjusted like a slice) holding
`c`, or `-1` when there is none. -/
def pyRfindCandidates (s : List Char) (c : Char) (a b : Int) : List Nat :=
  (List.range (clampIdx s.length b)).filter
    (fun p => decide (clampIdx s.length a ≤ p) && (s.getD p (Char.ofNat 0) == c))

def pyRfind (s : List Char) (c : Char) (a b : Int) : Int :=
  match (pyRfindCandidates s c a b).getLast? with
  | some p => (p : Int)
  | none => -1

/-- Python `" ".join(l)`. -/
def joinSpace : List (List Char) → List Char
  | [] => []
  | [w] => w
  | w :: ws => w ++ ' ' :: joinSpace ws

/-! ### The chunker: `ChunkingEmbeddingService._split_text_into_chunks`
(src/backend/chunking_embedding.py lines 88-126). -/

/-- The `end` computed by one iteration of the chunking loop: start from
`start + chunk_size`; if that stays inside the text, look backward (in
the last 100 characters of the window) for `'.'`, then `'!'`, `'?'`,
`'\n'`, and cut just after the found position when it is `> start`. -/
def splitIterEnd (text : List Char) (chunkSize : Nat) (start : Int) : Int :=
  let len : Int := text.length
  let end0 : Int := start + chunkSize
  if end0 < len then
    let searchStart : Int := max (start + (chunkSize : Int) - 100) start
    let sentenceEnd := pyRfind text '.' searchStart end0
    if sentenceEnd > start then sentenceEnd + 1
    else
      match ['!', '?', '\n'].findSome? (fun punct =>
          let p := pyRfind text punct searchStart end0
          if p > start then some (p + 1) else none) with
      | some e => e
      | none => end0
  else end0

/-- One iteration of the chunking `while` loop: the next `start`
position and the chunk emitted by this iteration (none when the
stripped slice is empty). -/
def splitStep (text : List Char) (chunkSize overlap : Nat) (start : Int) :
    Int × Option (List Char) :=
  let e := splitIterEnd text chunkSize start
  let chunk := pyStrip (pySlice text start e)
  (e - (overlap : Int), if chunk.isEmpty then none else some chunk)

/-- The chunking `while` loop, fuel-indexed because the source loop need
not terminate (the guard is `start < len(text)`, with a redundant
`start >= len(text)` break after the update). -/
def splitAux (text : List Char) (chunkSize overlap : Nat) :
    Nat → Int → Option (List (List Char))
  | 0, _ => none
  | fuel + 1, start =>
    if start < (text.length : Int) then
      match splitAux text chunkSize overlap fuel
          (splitStep text chunkSize overlap start).1 with
      | none => none
      | some rest =>
        match (splitStep text chunkSize overlap start).2 with
        | some c => some (c :: rest)
        | none => some rest
    else some []

/-- `_split_text_into_chunks(text, chunk_size, overlap)`: texts of at
most `chunk_size` characters are returned whole; otherwise the sliding
window runs with `text.length + 1` fuel (enough for every terminating
run, see `splitAux_isSome`); `none` models a
non-terminating loop. -/
def split_text_into_chunks (text : List Char) (chunkSize overlap : Nat) :
    Option (List (List Char)) :=
  if text.length ≤ chunkSize then some [text]
  else splitAux text chunkSize overlap (text.length + 1) 0


/-! ### Data model (src/backend/models.py, src/backend/pdf_parser.py) -/

/-- The `metadata` dict attached to each chunk by
`ChunkingEmbeddingService.chunk_text` (chunking_embedding.py 73-79). -/
structure ChunkMeta where
  section_title : String
  section_page : Nat
  chunk_length : Nat
  pdf_title : List Char
  chunks_per_page : Nat
  deriving Repr, DecidableEq

/-- The pydantic `Chunk` model (models.py): id, text, page number and
position of the chunk within its page. -/
structure Chunk where
  id : String
  text : List Char
  page_number : Nat
  chunk_index : Nat
  metadata : ChunkMeta
  deriving Repr, DecidableEq

/-- One entry of `PDFStructure.sections`: a dict with a `page` number
and a `content` list of paragraph strings. -/
structure PDFSection where
  page : Nat
  content : List (List Char)
  deriving Repr, DecidableEq

/-- `PDFStructure` (pdf_parser.py 12-16). -/
structure PDFStructure where
  title : List Char
  sections : List PDFSection
  paragraphs : List (List Char)
  total_pages : Nat
  deriving Repr, DecidableEq

/-! ### `ChunkingEmbeddingService.chunk_text`
(chunking_embedding.py 32-85): group content by page, join each page
with single spaces, skip pages that strip to nothing, split each page
with the sliding window, and number chunks with a global counter. -/

/-- The page numbers that end up as keys of `pages_content`, in the
ascending order `sorted(pages_content.keys())` iterates them: pages of
all sections, plus page 1 when loose paragraphs exist (the code defaults
every loose paragraph to page 1). -/
def pageKeys (pdf : PDFStructure) : List Nat :=
  List.insertionSort (fun a b => a ≤ b)
    (((pdf.sections.map (fun s : PDFSection => s.page)) ++
      (if pdf.paragraphs.isEmpty then [] else [1])).dedup)

/-- `" ".join(pages_content[p])`: the section contents for page `p` in
section order, with the loose paragraphs appended at page 1 (they are
added after the section loop). -/
def pageText (pdf : PDFStructure) (p : Nat) : List Char :=
  joinSpace (((pdf.sections.filter (fun s => s.page == p)).map
      (fun s : PDFSection => s.content)).flatten
    ++ (if p == 1 then pdf.paragraphs else []))

/-- The per-page body of `chunk_text`, fed the sorted page keys and the
running global chunk counter. -/
def chunkTextAux (pdf : PDFStructure) (chunkSize overlap : Nat) :
    List Nat → Nat → Option (List Chunk)
  | [], _ => some []
  | p :: ps, cid =>
    let ptext := pageText pdf p
    if (pyStrip ptext).isEmpty then chunkTextAux pdf chunkSize overlap ps cid
    else
      match split_text_into_chunks ptext chunkSize overlap with
      | none => none
      | some pageChunks =>
        match chunkTextAux pdf chunkSize overlap ps (cid + pageChunks.length) with
        | none => none
        | some rest =>
          some ((pageChunks.enum.map (fun ic =>
            ⟨"chunk_" ++ toString (cid + ic.1), ic.2, p, ic.1,
              ⟨"Page " ++ toString p, p, ic.2.length, pdf.title, pageChunks.length⟩⟩))
            ++ rest)

/-- `chunk_text(pdf_structure, chunk_size, overlap)`; `none` when the
sliding window fails to terminate on some page. -/
def chunk_text (pdf : PDFStructure) (chunkSize overlap : Nat) : Option (List Chunk) :=
  chunkTextAux pdf chunkSize overlap (pageKeys pdf) 0

/-! ### The embedding index (chunking_embedding.py 128-223)

`faiss.IndexFlatIP` over L2-normalised embeddings is modelled as the
list of stored vectors (exact rationals) in insertion order.  The
external embedding model together with `faiss.normalize_L2` is an
abstract parameter `encodeNorm`. -/

/-- A `VectorStore` (chunking_embedding.py 18-22): the faiss index (its
stored vectors, in insertion order) and the parallel chunk list.  The
`model` field is the service-wide embedding function and is carried as
the `encodeNorm` parameter of the operations instead. -/
structure VectorStore where
  index : List (List ℚ)
  chunks : List Chunk
  deriving Repr, DecidableEq

/-- Inner product of two stored vectors. -/
def dotIP (a b : List ℚ) : ℚ := (List.zipWith (fun x y => x * y) a b).sum

/-- The distance faiss pads missing results with for an inner-product
index (`-FLT_MAX`); only its role as a sentinel matters here. -/
def negFloatMax : ℚ := -(2 ^ 128)

/-- `index.search(q, k)` on a flat inner-product index: every stored
vector is scored against `q`, the `min k n` best (by descending score,
ties by insertion position) are returned, and when `k` exceeds the
number of stored vectors the remaining slots are padded with label `-1`
and distance `-FLT_MAX`. -/
def faissSearchIP (vecs : List (List ℚ)) (q : List ℚ) (k : Nat) : List (ℚ × Int) :=
  let scored := vecs.enum.map (fun p => (dotIP q p.2, (p.1 : Int)))
  let sorted := List.insertionSort
    (fun a b : ℚ × Int => a.1 > b.1 ∨ (a.1 = b.1 ∧ a.2 ≤ b.2)) scored
  let top := sorted.take k
  top ++ List.replicate (k - top.length) (negFloatMax, -1)

/-- Python list indexing `l[i]`: a negative index counts from the end;
`none` models an `IndexError` (unreachable for faiss labels when the
chunk list is non-empty, since faiss yields labels ≥ -1). -/
def pyListGet (l : List Chunk) (i : Int) : Option Chunk :=
  if 0 ≤ i ∧ i < l.length then l.get? i.toNat
  else if -(l.length : Int) ≤ i ∧ i < 0 then l.get? ((l.length : Int) + i).toNat
  else none

/-- `create_embeddings(chunks)` (chunking_embedding.py 129-157): refuse
an empty chunk list, else store one normalised embedding per chunk, in
chunk order. -/
def create_embeddings (encodeNorm : List Char → List ℚ) (chunks : List Chunk) :
    Except String VectorStore :=
  if chunks.isEmpty then Except.error ("No chunks provided for embedding")
  else Except.ok ⟨chunks.map (fun c => encodeNorm c.text), chunks⟩

/-- `search_similar_chunks(query, top_k)` (chunking_embedding.py
160-182): embed the query, search the faiss index, and keep every
`(chunk, score)` pair whose faiss label passes the guard
`idx < len(chunks)` — which a padding label of `-1` also passes, Python
then resolving `chunks[-1]` to the last chunk. -/
def search_similar_chunks (encodeNorm : List Char → List ℚ) (vs : VectorStore)
    (query : List Char) (topK : Nat) : List (Chunk × ℚ) :=
  let results := faissSearchIP vs.index (encodeNorm query) topK
  results.filterMap (fun r =>
    if r.2 < (vs.chunks.length : Int) then
      (pyListGet vs.chunks r.2).map (fun c => (c, r.1))
    else none)

/-! ### Persistence (chunking_embedding.py 185-223) -/

/-- The pickle companion file written by `save_vector_store`: the chunk
list plus, under the (misnamed) key `model_name`, the embedding
dimension. -/
structure SavedChunksFile where
  chunks : List Chunk
  model_name : Nat
  deriving Repr, DecidableEq

/-- `save_vector_store(filepath)`: writes the faiss index to one file
and pickles the chunk list (with the embedding dimension) to a second
file.  `faiss.write_index` and `pickle.dump` are assumed faithful, so
the files hold the serialised values themselves. -/
def save_vector_store (dim : Nat) (vs : VectorStore) :
    List (List ℚ) × SavedChunksFile :=
  (vs.index, ⟨vs.chunks, dim⟩)

/-- Errors `load_vector_store` can surface: the underlying
`FileNotFoundError` / faiss read error for a missing file, and a pickle
deserialisation failure for an unreadable companion.  The repository
defines no `CorruptIndexError` (or any custom exception) anywhere. -/
inductive LoadError where
  | fileNotFound
  | unpicklingError
  deriving Repr, DecidableEq

/-- `load_vector_store(filepath)` (chunking_embedding.py 206-223): read
the faiss index file and the pickle file and rebuild the store.  `none`
for a file argument models that file being absent or unreadable on
disk; the function performs no consistency check whatsoever between the
two files. -/
def load_vector_store (indexFile : Option (List (List ℚ)))
    (chunksFile : Option SavedChunksFile) : Except LoadError VectorStore :=
  match indexFile with
  | none => Except.error LoadError.fileNotFound
  | some idx =>
    match chunksFile with
    | none => Except.error LoadError.fileNotFound
    | some data => Except.ok ⟨idx, data.chunks⟩

/-! ### The novelty filter (src/rag_system.py)

Texts are `List Char`; Python `str.lower` is mapped `Char.toLower`
(ASCII, as in the sources), `str.split()` is whitespace splitting with
empties dropped, `re.findall(r'\b\w+\b', ...)` is splitting into maximal
runs of word characters.  `difflib.SequenceMatcher(None, a, b).ratio()`
is an abstract parameter `seqSim`.  Float arithmetic is idealised as
exact rational arithmetic. -/

/-- Python `str.lower()` (ASCII). -/
def toLowerStr (s : List Char) : List Char := s.map Char.toLower

/-- Split into the maximal runs of characters satisfying `keep`,
dropping everything else: with `keep = not whitespace` this is Python
`str.split()`, with `keep = word character` it is
`re.findall(r'\b\w+\b', s)`. -/
def splitRuns (keep : Char → Bool) (s : List Char) : List (List Char) :=
  (s.splitOnP (fun c => !keep c)).filter (fun w => !w.isEmpty)

/-- Python `str.split()` with no separator. -/
def pyWords (s : List Char) : List (List Char) := splitRuns (fun c => !isPySpace c) s

/-- `\w` of Python's `re` (ASCII fragment). -/
def isWordChar (c : Char) : Bool := c.isAlphanum || c == '_'

/-- `re.findall(r'\b\w+\b', s)`. -/
def wordTokens (s : List Char) : List (List Char) := splitRuns isWordChar s

/-- Stop words of `_is_stopword_ngram` (rag_system.py 273). -/
def ngramStopWords : List (List Char) :=
  ["the", "a", "an", "in", "on", "at", "to", "of", "for", "is", "are", "was",
   "were", "be", "been", "have", "has", "had", "this", "that", "these",
   "those", "with", "from", "by"].map String.data

/-- Stop words of `_create_semantic_fingerprint` (rag_system.py 284). -/
def fingerprintStopWords : List (List Char) :=
  ngramStopWords ++
    ["it", "as", "can", "will", "would", "their", "them", "they"].map String.data

/-- `_is_stopword_ngram(ngram)` (rag_system.py 271-276): at most one
word of the n-gram is not a stop word (`stop_count >= len(words) - 1`,
written without truncated subtraction). -/
def isStopwordNgram (ngram : List Char) : Bool :=
  let ws := pyWords ngram
  ws.length ≤ (ws.countP (fun w => ngramStopWords.contains w)) + 1

/-- The word n-grams of length `n`: `' '.join(words[i:i+n])` for
`i in range(len(words) - n + 1)`. -/
def ngramsOfWords (ws : List (List Char)) (n : Nat) : List (List Char) :=
  (List.range (ws.length + 1 - n)).map (fun i => joinSpace ((ws.drop i).take n))

/-- All n-grams of lengths 2, 3, 4 in the order the nested source loops
visit them. -/
def allNgrams (ws : List (List Char)) : List (List Char) :=
  ([2, 3, 4].map (ngramsOfWords ws)).flatten

/-- `collections.Counter` over n-gram strings, as an association list
with unique keys in first-insertion order. -/
def counterGet (c : List (List Char × Nat)) (k : List Char) : Nat :=
  ((c.find? (fun p => p.1 == k)).map (fun p => p.2)).getD 0

/-- `counter[k] += 1`. -/
def counterIncr (c : List (List Char × Nat)) (k : List Char) :
    List (List Char × Nat) :=
  if (c.find? (fun p => p.1 == k)).isSome then
    c.map (fun p => if p.1 == k then (p.1, p.2 + 1) else p)
  else c ++ [(k, 1)]

/-- The inner body of `_update_ngram_tracker`: count every n-gram that
is not stop-word dominated. -/
def counterAddAll (c : List (List Char × Nat)) (gs : List (List Char)) :
    List (List Char × Nat) :=
  gs.foldl (fun acc g => if isStopwordNgram g then acc else counterIncr acc g) c

/-- `_update_ngram_tracker(text)` (rag_system.py 258-269). -/
def updateNgramTracker (c : List (List Char × Nat)) (text : List Char) :
    List (List Char × Nat) :=
  counterAddAll c (allNgrams (pyWords (toLowerStr text)))

/-- `_extract_ngrams(text, [2, 3, 4])` (rag_system.py 363-374): the SET
of non-stop-word n-grams, as a duplicate-free list. -/
def extractNgrams (text : List Char) : List (List Char) :=
  ((allNgrams (pyWords text)).filter (fun g => !isStopwordNgram g)).dedup

/-- `_calculate_ngram_overlap(current_ngrams)` (rag_system.py 376-382):
the fraction of the candidate's n-grams already seen at least once. -/
def calculateNgramOverlap (covered : List (List Char × Nat))
    (current : List (List Char)) : ℚ :=
  if current.isEmpty then 0
  else ((current.countP (fun g => 1 ≤ counterGet covered g) : ℚ)) / (current.length : ℚ)

/-- A semantic fingerprint: normalised term frequencies keyed by word,
as an association list with unique keys. -/
def createSemanticFingerprint (text : List Char) : List (List Char × ℚ) :=
  let meaningful := (wordTokens (toLowerStr text)).filter
    (fun w => !fingerprintStopWords.contains w && decide (3 < w.length))
  if meaningful.isEmpty then []
  else meaningful.dedup.map
    (fun w => (w, (meaningful.count w : ℚ) / (meaningful.length : ℚ)))

/-- Lookup in a fingerprint (`fp.get(word, 0)`). -/
def fpGet (fp : List (List Char × ℚ)) (w : List Char) : ℚ :=
  ((fp.find? (fun p => p.1 == w)).map (fun p => p.2)).getD 0

/-- `sum(v**2 for v in fp.values())`, the square of the norm used by
`_semantic_fingerprint_similarity`. -/
def fpNormSq (fp : List (List Char × ℚ)) : ℚ := (fp.map (fun p => p.2 ^ 2)).sum

/-- The dot product over the union of the two key sets. -/
def fpDot (fp1 fp2 : List (List Char × ℚ)) : ℚ :=
  (((fp1.map (fun p => p.1)) ++ (fp2.map (fun p => p.1))).dedup.map
    (fun w => fpGet fp1 w * fpGet fp2 w)).sum

/-- Decides `_semantic_fingerprint_similarity(fp1, fp2) > t`
(rag_system.py 297-313) for a positive threshold `t` without leaving ℚ:
the similarity is `dot / (sqrt a * sqrt b)` with `a`, `b` the squared
norms (and is defined to be 0 when either fingerprint or norm is zero),
and for `t > 0`, `a > 0`, `b > 0` one has
`dot / (sqrt a * sqrt b) > t ↔ 0 < dot ∧ t^2 * a * b < dot^2`. -/
def fpSimExceeds (fp1 fp2 : List (List Char × ℚ)) (t : ℚ) : Bool :=
  if fp1.isEmpty || fp2.isEmpty then false
  else if fpNormSq fp1 == 0 || fpNormSq fp2 == 0 then false
  else decide (0 < fpDot fp1 fp2) &&
    decide (t ^ 2 * fpNormSq fp1 * fpNormSq fp2 < (fpDot fp1 fp2) ^ 2)

/-- `_check_semantic_similarity(text1, text2)` (rag_system.py 384-403):
40% Jaccard word overlap plus 60% `SequenceMatcher` ratio, the latter
supplied abstractly as `seqSim`. -/
def checkSemanticSimilarity (seqSim : List Char → List Char → ℚ)
    (t1 t2 : List Char) : ℚ :=
  let w1 := (pyWords (toLowerStr t1)).dedup
  let w2 := (pyWords (toLowerStr t2)).dedup
  if w1.isEmpty || w2.isEmpty then 0
  else
    let inter := w1.filter (fun w => w2.contains w)
    let union := (w1 ++ w2).dedup
    let jaccard : ℚ := if union.isEmpty then 0
      else (inter.length : ℚ) / (union.length : ℚ)
    jaccard * (4 / 10) + seqSim (toLowerStr t1) (toLowerStr t2) * (6 / 10)

/-- The run-scoped novelty state of `RAGSystem` (rag_system.py 18-21):
seen bullet texts, generated texts, the n-gram counter, and the stored
fingerprints. -/
structure RAGState where
  allSeenBullets : List (List Char)
  allGeneratedTexts : List (List Char)
  coveredNgrams : List (List Char × Nat)
  semanticFingerprints : List (List (List Char × ℚ))

/-- The fresh state `generate_comprehensive_bullets` resets to
(rag_system.py 487-490). -/
def initialRAGState : RAGState := ⟨[], [], [], []⟩

/-- The acceptance bookkeeping of
`generate_bullets_for_outline_item` (rag_system.py 79-86): record the
lowered text, its n-grams, and its fingerprint. -/
def acceptBullet (st : RAGState) (text : List Char) : RAGState :=
  ⟨st.allSeenBullets ++ [toLowerStr text],
   st.allGeneratedTexts ++ [toLowerStr text],
   updateNgramTracker st.coveredNgrams text,
   st.semanticFingerprints ++ [createSemanticFingerprint text]⟩

/-- `_deduplicate_advanced(bullets)` (rag_system.py 315-361): for each
candidate in order, reject on (1) n-gram overlap ratio above 0.3
against the global counter, then (2) fingerprint similarity above 0.65
against any stored fingerprint, then (3) blended similarity above 0.5
against any candidate already kept in this batch; keep it otherwise. -/
def deduplicateAdvanced (seqSim : List Char → List Char → ℚ) (st : RAGState)
    (bullets : List (List Char)) : List (List Char) :=
  bullets.foldl (fun result bullet =>
    let bulletNorm := joinSpace (pyWords (toLowerStr bullet))
    let bulletNgrams := extractNgrams bulletNorm
    if calculateNgramOverlap st.coveredNgrams bulletNgrams > 3 / 10 then result
    else
      let currentFp := createSemanticFingerprint bullet
      if st.semanticFingerprints.any (fun prev => fpSimExceeds currentFp prev (65 / 100)) then
        result
      else if result.any (fun ex =>
          checkSemanticSimilarity seqSim bulletNorm (toLowerStr ex) > 5 / 10) then
        result
      else result ++ [bullet]) []

/-! ### Candidate ordering before generation (C8)

The backend implementation (src/backend/rag_system.py 229-233) re-sorts
the query results by `(page_number, chunk_index)` before
`_prepare_context`; the legacy implementation (src/rag_system.py 37-44,
91-102) hands them to `_prepare_context` in query (score) order. -/

/-- The chronological key order used by the backend `sorted(...)` call:
ascending `(page_number, chunk_index)`, lexicographically. -/
def chronoLe (a b : Chunk × ℚ) : Prop :=
  a.1.page_number < b.1.page_number ∨
    (a.1.page_number = b.1.page_number ∧ a.1.chunk_index ≤ b.1.chunk_index)

instance : DecidableRel chronoLe := fun a b => by
  unfold chronoLe; infer_instance

/-- The backend re-sort of `similar_chunks`
(src/backend/rag_system.py 229-233); Python's `sorted` is stable, as is
insertion sort. -/
def backendSortCandidates (l : List (Chunk × ℚ)) : List (Chunk × ℚ) :=
  List.insertionSort chronoLe l

/-- The chunk sequence the backend `_prepare_context` walks
(src/backend/rag_system.py 300): the first 14 of the re-sorted list. -/
def backendContextChunks (l : List (Chunk × ℚ)) : List (Chunk × ℚ) :=
  (backendSortCandidates l).take 14

/-- The chunk sequence the legacy `_prepare_context` walks
(src/rag_system.py 95): the first 5 of the raw query results, in score
order — no chronological re-sort anywhere on this path
(src/rag_system.py 23-102). -/
def flatContextChunks (l : List (Chunk × ℚ)) : List (Chunk × ℚ) := l.take 5

/-! ### Outline ordering (src/backend/outline_generator.py 350-406) -/

/-- The scan of `generate_outline` over the chunks: for each chunk and
each topic (in table order) whose pattern set matches the chunk text
(`matchesTopic` abstracts the `re.search` calls), record the topic with
the chunk's page, keeping the earliest page seen; insertion order of
the dict is first-match order.  The snippet collection of the source is
omitted: it feeds only the section descriptions, not the ordering. -/
def buildCandidates (matchesTopic : String → List Char → Bool)
    (topics : List String) (chunks : List Chunk) : List (String × Nat) :=
  chunks.foldl (fun cands ch =>
    topics.foldl (fun cands2 t =>
      if matchesTopic t ch.text then
        if (cands2.find? (fun p => p.1 == t)).isSome then
          cands2.map (fun p => if p.1 == t then (p.1, min p.2 ch.page_number) else p)
        else cands2 ++ [(t, ch.page_number)]
      else cands2) cands) []

/-- `ordered_topics = [t for t in topic_order if t in topic_candidates]`
(outline_generator.py 370). -/
def orderedCanonical (canonical : List String) (cands : List (String × Nat)) :
    List String :=
  canonical.filter (fun t => cands.any (fun p => p.1 == t))

/-- The ordering part of `generate_outline`
(outline_generator.py 369-393): canonical-order topics that were found,
then — while there is room under `max_sections` — the remaining found
topics sorted by earliest page (stable), and finally the
`[:max_sections]` truncation. -/
def orderTopics (canonical : List String) (maxSections : Nat)
    (cands : List (String × Nat)) : List String :=
  let ordered := orderedCanonical canonical cands
  let ordered2 :=
    if ordered.length < maxSections then
      (List.insertionSort (fun a b : String × Nat => a.2 ≤ b.2)
          (cands.filter (fun p => !(ordered.contains p.1)))).foldl
        (fun acc t => if maxSections ≤ acc.length then acc else acc ++ [t.1])
        ordered
    else ordered
  ordered2.take maxSections

/-- The specification's reading of the same ordering
(spec §4.3 `assign_outline_order`): found labels in canonical order
first, then the remaining found labels sorted by earliest observed
page, truncated to `max_sections`.  `orderTopics` is proved to refine
this. -/
def assignOutlineOrderSpec (canonical : List String) (maxSections : Nat)
    (cands : List (String × Nat)) : List String :=
  (orderedCanonical canonical cands ++
    (List.insertionSort (fun a b : String × Nat => a.2 ≤ b.2)
        (cands.filter (fun p => !((orderedCanonical canonical cands).contains p.1)))).map
      (fun p => p.1)).take maxSections

/-! ### Concrete test fixtures used by the evaluation theorems -/

/-- Test fixtures: four chunks with distinct texts, an embedding
function giving them strictly decreasing scores against the query, and
the store `create_embeddings` builds from them. -/
def chunksC1 : List Chunk :=
  [⟨"c0", "t0".data, 1, 0, ⟨"", 0, 0, [], 0⟩⟩,
   ⟨"c1", "t1".data, 1, 1, ⟨"", 0, 0, [], 0⟩⟩,
   ⟨"c2", "t2".data, 2, 0, ⟨"", 0, 0, [], 0⟩⟩,
   ⟨"c3", "t3".data, 2, 1, ⟨"", 0, 0, [], 0⟩⟩]

def encC1 : List Char → List ℚ := fun t =>
  if t = "t0".data then [4] else if t = "t1".data then [3]
  else if t = "t2".data then [2] else [1]

def vsC1 : VectorStore := ⟨[[4], [3], [2], [1]], chunksC1⟩

def chunkW : Chunk := ⟨"w", "w".data, 1, 0, ⟨"", 0, 0, [], 0⟩⟩

def chunkA : Chunk := ⟨"a", "alpha".data, 1, 0, ⟨"", 0, 0, [], 0⟩⟩
def chunkB : Chunk := ⟨"b", "beta".data, 2, 0, ⟨"", 0, 0, [], 0⟩⟩

def encC8 : List Char → List ℚ := fun t =>
  if t = "beta".data then [3/4] else if t = "alpha".data then [1/2] else [1]

def vsC8 : VectorStore := ⟨[[1/2], [3/4]], [chunkA, chunkB]⟩

/-! ### Lemmas about the Python string primitives -/

theorem clampIdx_le_len (len : Nat) (i : Int) : clampIdx len i ≤ len := by
  unfold clampIdx
  split <;> exact Nat.min_le_right _ _

theorem clampIdx_of_nonneg (len : Nat) {i : Int} (h : 0 ≤ i) :
    clampIdx len i = min i.toNat len := by
  unfold clampIdx
  rw [if_neg (by omega)]

theorem clampIdx_cast_eq {len : Nat} {i : Int} (h0 : 0 ≤ i) (h1 : i ≤ len) :
    (clampIdx len i : Int) = i := by
  rw [clampIdx_of_nonneg len h0]
  omega

theorem clampIdx_cast_le {len : Nat} {i : Int} (h0 : 0 ≤ i) :
    (clampIdx len i : Int) ≤ i := by
  rw [clampIdx_of_nonneg len h0]
  omega

theorem lt_clampIdx {len : Nat} {e : Int} {i : Nat} (h0 : 0 ≤ e)
    (hie : (i : Int) < e) (hil : i < len) : i < clampIdx len e := by
  rw [clampIdx_of_nonneg len h0]
  omega

theorem mem_of_getLast?_eq_some {l : List Nat} {p : Nat}
    (h : l.getLast? = some p) : p ∈ l := by
  have hp : p ∈ l.getLast? := h ▸ rfl
  obtain ⟨hne, heq⟩ := List.mem_getLast?_eq_getLast hp
  exact heq ▸ List.getLast_mem hne

theorem pyRfind_bounds {s : List Char} {c : Char} {a b : Int}
    (h : pyRfind s c a b ≠ -1) :
    (clampIdx s.length a : Int) ≤ pyRfind s c a b ∧
      pyRfind s c a b < (clampIdx s.length b : Int) := by
  unfold pyRfind at *
  rcases hl : (pyRfindCandidates s c a b).getLast? with _ | p
  · rw [hl] at h
    exact absurd rfl h
  · have hmem : p ∈ pyRfindCandidates s c a b := mem_of_getLast?_eq_some hl
    unfold pyRfindCandidates at hmem
    rw [List.mem_filter] at hmem
    obtain ⟨hr, hp⟩ := hmem
    rw [List.mem_range] at hr
    rw [Bool.and_eq_true] at hp
    have hip : clampIdx s.length a ≤ p := of_decide_eq_true hp.1
    show (clampIdx s.length a : Int) ≤ (p : Int) ∧ (p : Int) < (clampIdx s.length b : Int)
    exact ⟨by exact_mod_cast hip, by exact_mod_cast hr⟩

theorem pyRfind_of_not_mem {s : List Char} {c : Char} (a b : Int)
    (h : c ∉ s) : pyRfind s c a b = -1 := by
  unfold pyRfind
  have hnil : pyRfindCandidates s c a b = [] := by
    unfold pyRfindCandidates
    rw [List.filter_eq_nil_iff]
    intro p hp
    rw [List.mem_range] at hp
    have hpl : p < s.length := lt_of_lt_of_le hp (clampIdx_le_len _ _)
    have hg : s.getD p (Char.ofNat 0) = s[p] := by
      rw [List.getD_eq_getElem?_getD, List.getElem?_eq_getElem hpl]
      rfl
    intro hcontra
    rw [Bool.and_eq_true] at hcontra
    have hc : s[p] = c := by
      rw [← hg]; exact eq_of_beq hcontra.2
    exact h (hc ▸ List.getElem_mem hpl)
  rw [hnil]
  rfl

theorem pySlice_length_le (s : List Char) (a b : Int) :
    (pySlice s a b).length ≤ clampIdx s.length b - clampIdx s.length a := by
  unfold pySlice
  rw [List.length_drop, List.length_take]
  omega

theorem pySlice_get_mem {s : List Char} {a b : Int} {i : Nat} (hi : i < s.length)
    (ha : clampIdx s.length a ≤ i) (hb : i < clampIdx s.length b) :
    s.get ⟨i, hi⟩ ∈ pySlice s a b := by
  unfold pySlice
  set ia := clampIdx s.length a
  set jb := clampIdx s.length b
  have hjb : jb ≤ s.length := clampIdx_le_len _ _
  have hlen : i - ia < ((s.take jb).drop ia).length := by
    rw [List.length_drop, List.length_take]
    omega
  have heq : ((s.take jb).drop ia)[i - ia] = s[i] := by
    rw [List.getElem_drop, List.getElem_take]
    congr 1
    omega
  have hm := List.getElem_mem hlen
  rw [heq] at hm
  rw [List.get_eq_getElem]
  exact hm

theorem mem_dropWhile_of_not {p : Char → Bool} {a : Char} (hpa : p a = false) :
    ∀ {l : List Char}, a ∈ l → a ∈ l.dropWhile p := by
  intro l
  induction l with
  | nil => intro h; exact absurd h (List.not_mem_nil a)
  | cons b t ih =>
    intro h
    rw [List.dropWhile_cons]
    by_cases hb : p b = true
    · rw [if_pos hb]
      rcases List.mem_cons.1 h with rfl | ht
      · rw [hpa] at hb; exact absurd hb (by simp)
      · exact ih ht
    · rw [if_neg hb]; exact h

theorem mem_pyStrip {a : Char} {l : List Char} (ha : isPySpace a = false)
    (h : a ∈ l) : a ∈ pyStrip l := by
  unfold pyStrip
  rw [List.mem_reverse]
  apply mem_dropWhile_of_not ha
  rw [List.mem_reverse]
  exact mem_dropWhile_of_not ha h

theorem pyStrip_length_le (l : List Char) : (pyStrip l).length ≤ l.length := by
  unfold pyStrip
  calc ((l.dropWhile isPySpace).reverse.dropWhile isPySpace).reverse.length
      = ((l.dropWhile isPySpace).reverse.dropWhile isPySpace).length := by
        rw [List.length_reverse]
    _ ≤ (l.dropWhile isPySpace).reverse.length :=
        (List.dropWhile_sublist _).length_le
    _ = (l.dropWhile isPySpace).length := by rw [List.length_reverse]
    _ ≤ l.length := (List.dropWhile_sublist _).length_le

theorem dropWhile_of_all_not {p : Char → Bool} :
    ∀ {l : List Char}, (∀ c ∈ l, p c = false) → l.dropWhile p = l := by
  intro l h
  cases l with
  | nil => rfl
  | cons b t =>
    rw [List.dropWhile_cons, if_neg (by rw [h b (List.mem_cons_self b t)]; simp)]

theorem pyStrip_of_no_space {l : List Char} (h : ∀ c ∈ l, isPySpace c = false) :
    pyStrip l = l := by
  unfold pyStrip
  rw [dropWhile_of_all_not h, dropWhile_of_all_not (fun c hc => h c (List.mem_reverse.1 hc)),
    List.reverse_reverse]

/-! ### The window advance of the chunking loop -/

theorem foundCut_bounds {ov cs : Nat} {start ss p : Int}
    (hss : start + (cs : Int) - 100 ≤ ss) (hpss : ss ≤ p)
    (hpe : p < start + (cs : Int)) (hp : start < p)
    (hov : ov = 0 ∨ ov + 100 ≤ cs) :
    start + (ov : Int) < p + 1 ∧ p + 1 ≤ start + (cs : Int) := by
  rcases hov with h | h <;> omega

theorem splitIterEnd_bounds (text : List Char) (cs ov : Nat) (hcs : 0 < cs)
    (hov : ov = 0 ∨ ov + 100 ≤ cs) {start : Int} (h0 : 0 ≤ start)
    (_hlt : start < (text.length : Int)) :
    start + (ov : Int) < splitIterEnd text cs start ∧
      splitIterEnd text cs start ≤ start + (cs : Int) := by
  have hovcs : (ov : Int) < (cs : Int) := by
    rcases hov with h | h <;> omega
  simp only [splitIterEnd]
  by_cases hend : start + (cs : Int) < (text.length : Int)
  · rw [if_pos hend]
    have h0e : (0 : Int) ≤ start + (cs : Int) := by omega
    have hssl : max (start + (cs : Int) - 100) start ≤ (text.length : Int) := by
      apply le_of_lt (lt_of_le_of_lt _ hend)
      apply max_le (by omega) (by omega)
    have hss0 : (0 : Int) ≤ max (start + (cs : Int) - 100) start :=
      le_trans h0 (le_max_right _ _)
    by_cases hse : pyRfind text '.' (max (start + (cs : Int) - 100) start)
        (start + (cs : Int)) > start
    · rw [if_pos hse]
      have hne : pyRfind text '.' (max (start + (cs : Int) - 100) start)
          (start + (cs : Int)) ≠ -1 := by omega
      obtain ⟨hb1, hb2⟩ := pyRfind_bounds hne
      rw [clampIdx_cast_eq hss0 hssl] at hb1
      have hb2' := lt_of_lt_of_le hb2 (clampIdx_cast_le h0e)
      exact foundCut_bounds (le_max_left _ _) hb1 hb2' hse hov
    · rw [if_neg hse]
      rcases hfs : (['!', '?', '\n'].findSome? (fun punct =>
          let p := pyRfind text punct (max (start + (cs : Int) - 100) start)
            (start + (cs : Int))
          if p > start then some (p + 1) else none)) with _ | e
      · show start + (ov : Int) < start + (cs : Int) ∧
          start + (cs : Int) ≤ start + (cs : Int)
        constructor <;> omega
      · show start + (ov : Int) < e ∧ e ≤ start + (cs : Int)
        rw [List.findSome?_eq_some_iff] at hfs
        obtain ⟨l₁, punct, l₂, hsplit, hfa, hbefore⟩ := hfs
        simp only at hfa
        by_cases hpp : pyRfind text punct (max (start + (cs : Int) - 100) start)
            (start + (cs : Int)) > start
        · rw [if_pos hpp] at hfa
          have he : e = pyRfind text punct (max (start + (cs : Int) - 100) start)
              (start + (cs : Int)) + 1 := by
            exact (Option.some_inj.1 hfa).symm
          subst he
          have hne : pyRfind text punct (max (start + (cs : Int) - 100) start)
              (start + (cs : Int)) ≠ -1 := by omega
          obtain ⟨hb1, hb2⟩ := pyRfind_bounds hne
          rw [clampIdx_cast_eq hss0 hssl] at hb1
          have hb2' := lt_of_lt_of_le hb2 (clampIdx_cast_le h0e)
          exact foundCut_bounds (le_max_left _ _) hb1 hb2' hpp hov
        · rw [if_neg hpp] at hfa
          exact absurd hfa (by simp)
  · rw [if_neg hend]
    constructor <;> omega

theorem splitStep_fst_advance (text : List Char) (cs ov : Nat) (hcs : 0 < cs)
    (hov : ov = 0 ∨ ov + 100 ≤ cs) {start : Int} (h0 : 0 ≤ start)
    (hlt : start < (text.length : Int)) :
    start < (splitStep text cs ov start).1 := by
  have := (splitIterEnd_bounds text cs ov hcs hov h0 hlt).1
  simp only [splitStep]
  omega

theorem splitStep_fst_le (text : List Char) (cs ov : Nat) (hcs : 0 < cs)
    (hov : ov = 0 ∨ ov + 100 ≤ cs) {start : Int} (h0 : 0 ≤ start)
    (hlt : start < (text.length : Int)) :
    (splitStep text cs ov start).1 ≤ start + (cs : Int) := by
  have := (splitIterEnd_bounds text cs ov hcs hov h0 hlt).2
  simp only [splitStep]
  omega

theorem splitAux_succ (text : List Char) (cs ov fuel : Nat) (start : Int) :
    splitAux text cs ov (fuel + 1) start =
      if start < (text.length : Int) then
        match splitAux text cs ov fuel (splitStep text cs ov start).1 with
        | none => none
        | some rest =>
          match (splitStep text cs ov start).2 with
          | some c => some (c :: rest)
          | none => some rest
      else some [] := rfl

theorem splitAux_isSome (text : List Char) (cs ov : Nat) (hcs : 0 < cs)
    (hov : ov = 0 ∨ ov + 100 ≤ cs) :
    ∀ (fuel : Nat) (start : Int), 0 ≤ start →
      (text.length : Int) ≤ start + fuel →
      (splitAux text cs ov (fuel + 1) start).isSome = true := by
  intro fuel
  induction fuel with
  | zero =>
    intro start h0 hle
    rw [splitAux_succ]
    rw [if_neg (by push_cast at hle ⊢; omega)]
    rfl
  | succ n ih =>
    intro start h0 hle
    rw [splitAux_succ]
    by_cases hstart : start < (text.length : Int)
    · rw [if_pos hstart]
      have hadv := splitStep_fst_advance text cs ov hcs hov h0 hstart
      have hrec := ih (splitStep text cs ov start).1 (by omega)
        (by push_cast at hle ⊢; omega)
      rcases hsub : splitAux text cs ov (n + 1) (splitStep text cs ov start).1 with _ | rest
      · rw [hsub] at hrec
        exact absurd hrec (by simp)
      · rcases (splitStep text cs ov start).2 with _ | c <;> rfl
    · rw [if_neg hstart]
      rfl

/-! ### Coverage and chunk-size bound of the sliding window -/

theorem splitAux_covers (text : List Char) (cs ov : Nat) (hcs : 0 < cs)
    (hov : ov = 0 ∨ ov + 100 ≤ cs) :
    ∀ (fuel : Nat) (start : Int) (res : List (List Char)),
      splitAux text cs ov fuel start = some res → 0 ≤ start →
      ∀ (i : Nat) (hi : i < text.length), start ≤ (i : Int) →
        isPySpace text[i] = false → ∃ c ∈ res, text[i] ∈ c := by
  intro fuel
  induction fuel with
  | zero =>
    intro start res hres
    exact absurd hres (by rw [show splitAux text cs ov 0 start = none from rfl]; simp)
  | succ n ih =>
    intro start res hres h0 i hi hsi hsp
    rw [splitAux_succ] at hres
    by_cases hstart : start < (text.length : Int)
    · rw [if_pos hstart] at hres
      rcases hsub : splitAux text cs ov n (splitStep text cs ov start).1 with _ | rest
      · rw [hsub] at hres
        exact absurd hres (by simp)
      · rw [hsub] at hres
        have hadv := splitStep_fst_advance text cs ov hcs hov h0 hstart
        by_cases hrecur : (splitStep text cs ov start).1 ≤ (i : Int)
        · -- the position is handled by a later window
          obtain ⟨c, hc, hmem⟩ := ih (splitStep text cs ov start).1 rest hsub
            (by omega) i hi hrecur hsp
          refine ⟨c, ?_, hmem⟩
          rcases h2 : (splitStep text cs ov start).2 with _ | c0 <;> rw [h2] at hres
          · exact (Option.some_inj.1 hres) ▸ hc
          · exact (Option.some_inj.1 hres) ▸ List.mem_cons_of_mem c0 hc
        · -- the position lies in the current window
          obtain ⟨hlow, hhigh⟩ := splitIterEnd_bounds text cs ov hcs hov h0 hstart
          have hie : (i : Int) < splitIterEnd text cs start := by
            have : (splitStep text cs ov start).1 =
                splitIterEnd text cs start - (ov : Int) := rfl
            omega
          have he0 : (0 : Int) ≤ splitIterEnd text cs start := by omega
          have hchar : text[i] ∈ pySlice text start (splitIterEnd text cs start) := by
            apply pySlice_get_mem hi
            · calc clampIdx text.length start ≤ start.toNat := by
                    rw [clampIdx_of_nonneg _ h0]; omega
                _ ≤ i := by omega
            · exact lt_clampIdx he0 hie hi
          have hchunk : text[i] ∈ pyStrip (pySlice text start (splitIterEnd text cs start)) :=
            mem_pyStrip hsp hchar
          have hne0 : (pyStrip (pySlice text start (splitIterEnd text cs start))).isEmpty = false := by
            rcases hx : pyStrip (pySlice text start (splitIterEnd text cs start)) with _ | _
            · rw [hx] at hchunk
              exact absurd hchunk (List.not_mem_nil _)
            · rfl
          have h2 : (splitStep text cs ov start).2 =
              some (pyStrip (pySlice text start (splitIterEnd text cs start))) := by
            show (if (pyStrip (pySlice text start (splitIterEnd text cs start))).isEmpty
                then none else some (pyStrip (pySlice text start (splitIterEnd text cs start)))) =
              some (pyStrip (pySlice text start (splitIterEnd text cs start)))
            rw [hne0]
            rfl
          rw [h2] at hres
          refine ⟨pyStrip (pySlice text start (splitIterEnd text cs start)), ?_, hchunk⟩
          exact (Option.some_inj.1 hres) ▸ List.mem_cons_self _ _
    · rw [if_neg hstart] at hres
      exfalso
      omega

theorem splitAux_chunk_le (text : List Char) (cs ov : Nat) (hcs : 0 < cs)
    (hov : ov = 0 ∨ ov + 100 ≤ cs) :
    ∀ (fuel : Nat) (start : Int) (res : List (List Char)),
      splitAux text cs ov fuel start = some res → 0 ≤ start →
      ∀ c ∈ res, c.length ≤ cs := by
  intro fuel
  induction fuel with
  | zero =>
    intro start res hres
    exact absurd hres (by rw [show splitAux text cs ov 0 start = none from rfl]; simp)
  | succ n ih =>
    intro start res hres h0 c hc
    rw [splitAux_succ] at hres
    by_cases hstart : start < (text.length : Int)
    · rw [if_pos hstart] at hres
      rcases hsub : splitAux text cs ov n (splitStep text cs ov start).1 with _ | rest
      · rw [hsub] at hres
        exact absurd hres (by simp)
      · rw [hsub] at hres
        have hadv := splitStep_fst_advance text cs ov hcs hov h0 hstart
        have hrest : ∀ c' ∈ rest, c'.length ≤ cs :=
          ih (splitStep text cs ov start).1 rest hsub (by omega)
        obtain ⟨hlow, hhigh⟩ := splitIterEnd_bounds text cs ov hcs hov h0 hstart
        have hcur : ∀ c', (splitStep text cs ov start).2 = some c' → c'.length ≤ cs := by
          intro c' h2
          have hc' : c' = pyStrip (pySlice text start (splitIterEnd text cs start)) := by
            by_cases hemp : (pyStrip (pySlice text start (splitIterEnd text cs start))).isEmpty
            · exact absurd h2 (by
                show (if (pyStrip (pySlice text start (splitIterEnd text cs start))).isEmpty
                    then none
                    else some (pyStrip (pySlice text start (splitIterEnd text cs start)))) =
                      some c' → False
                rw [if_pos hemp]
                simp)
            · have : (splitStep text cs ov start).2 =
                  some (pyStrip (pySlice text start (splitIterEnd text cs start))) := by
                show (if (pyStrip (pySlice text start (splitIterEnd text cs start))).isEmpty
                    then none
                    else some (pyStrip (pySlice text start (splitIterEnd text cs start)))) = _
                rw [if_neg hemp]
              rw [this] at h2
              exact (Option.some_inj.1 h2).symm
          subst hc'
          calc (pyStrip (pySlice text start (splitIterEnd text cs start))).length
              ≤ (pySlice text start (splitIterEnd text cs start)).length :=
                pyStrip_length_le _
            _ ≤ clampIdx text.length (splitIterEnd text cs start) -
                  clampIdx text.length start := pySlice_length_le _ _ _
            _ ≤ cs := by
                have he0 : (0 : Int) ≤ splitIterEnd text cs start := by omega
                have h1 : (clampIdx text.length (splitIterEnd text cs start) : Int) ≤
                    splitIterEnd text cs start := clampIdx_cast_le he0
                have h2' : clampIdx text.length start = start.toNat := by
                  rw [clampIdx_of_nonneg _ h0]
                  omega
                omega
        rcases h2 : (splitStep text cs ov start).2 with _ | c0 <;> rw [h2] at hres
        · have : res = rest := (Option.some_inj.1 hres).symm
          exact hrest c (this ▸ hc)
        · have : res = c0 :: rest := (Option.some_inj.1 hres).symm
          subst this
          rcases List.mem_cons.1 hc with rfl | hmem
          · exact hcur c h2
          · exact hrest c hmem
    · rw [if_neg hstart] at hres
      have : res = [] := (Option.some_inj.1 hres).symm
      subst this
      exact absurd hc (List.not_mem_nil c)

/-! ### Claim C2 -/

/-- C2, amended: for `chunk_size > 0` with `overlap = 0` or
`overlap + 100 ≤ chunk_size`, the window start strictly advances on
every iteration taken from a nonnegative position inside the text, and
the chunk-splitting loop therefore terminates (within
`len(text) + 1` iterations).  Without the extra condition the claim is
false, see `chunking_window_can_stall`. -/
theorem chunking_advances_and_terminates (text : List Char) (cs ov : Nat)
    (hcs : 0 < cs) (hov : ov = 0 ∨ ov + 100 ≤ cs) :
    (∀ start : Int, 0 ≤ start → start < (text.length : Int) →
      start < (splitStep text cs ov start).1) ∧
    (split_text_into_chunks text cs ov).isSome = true := by
  constructor
  · intro start h0 hlt
    exact splitStep_fst_advance text cs ov hcs hov h0 hlt
  · unfold split_text_into_chunks
    by_cases hlen : text.length ≤ cs
    · rw [if_pos hlen]
      rfl
    · rw [if_neg hlen]
      exact splitAux_isSome text cs ov hcs hov text.length 0 le_rfl (by omega)

/-- Witness for `chunking_advances_and_terminates` at the default
configuration `chunk_size = 2000`, `overlap = 200`. -/
theorem chunking_advances_and_terminates_witness :
    0 < 2000 ∧ (200 = 0 ∨ 200 + 100 ≤ 2000) ∧
    ((∀ start : Int, 0 ≤ start → start < ("hello world".data.length : Int) →
        start < (splitStep ("hello world".data) 2000 200 start).1) ∧
      (split_text_into_chunks ("hello world".data) 2000 200).isSome = true) :=
  ⟨by decide, by decide,
    chunking_advances_and_terminates ("hello world".data) 2000 200 (by decide)
      (by decide)⟩

/-- Counterexample to C2 as stated: with the valid configuration
`chunk_size = 10`, `overlap = 5` (`0 ≤ overlap < chunk_size`) on the
17-character text `"ab.cdefghijklmnop"`, the loop reaches the state
`start = -5` (after two iterations from `start = 0`) and then no longer
advances: `start` stays `-5 < 17` forever, and the fuelled loop
exhausts its fuel (`none`): the sentence-boundary cut at position 2
moves `start` to `3 - 5 = -2 < 0`, after which Python's negative-index
semantics make every further window empty. -/
theorem chunking_window_can_stall :
    (splitStep ("ab.cdefghijklmnop".data) 10 5 0).1 = -2 ∧
    (splitStep ("ab.cdefghijklmnop".data) 10 5 (-2)).1 = -5 ∧
    (splitStep ("ab.cdefghijklmnop".data) 10 5 (-5)).1 = -5 ∧
    (-5 : Int) < ("ab.cdefghijklmnop".data.length : Int) ∧
    split_text_into_chunks ("ab.cdefghijklmnop".data) 10 5 = none := by
  refine ⟨?_, ?_, ?_, ?_, ?_⟩ <;> decide

/-! ### Claim C3 -/

/-- Counterexample to C3: the chunker performs no configuration
validation at all — `chunk_text` with `overlap = chunk_size = 1` on a
one-character page returns a normal chunk list and raises nothing (the
repository defines no `ConfigurationError`, nor any other custom
exception). -/
theorem invalid_overlap_not_rejected :
    chunk_text ⟨"t".data, [⟨1, ["a".data]⟩], [], 1⟩ 1 1 =
      some [⟨"chunk_0", "a".data, 1, 0, ⟨"Page 1", 1, 1, "t".data, 1⟩⟩] := by
  decide

/-- C3, amended: `overlap ≥ chunk_size` is neither rejected nor
clamped.  A page text of at most `chunk_size` characters is chunked
normally; on any longer sentence-boundary-free text the window start
never increases past 0, so the loop never terminates (every fuel bound
is exhausted from any start ≤ 0, in particular from the initial 0). -/
theorem invalid_overlap_accepted_or_diverges (text : List Char) (cs ov : Nat)
    (hle : cs ≤ ov) :
    (text.length ≤ cs → split_text_into_chunks text cs ov = some [text]) ∧
    (0 < cs →
      (∀ c ∈ text, c ≠ '.' ∧ c ≠ '!' ∧ c ≠ '?' ∧ c ≠ '\n') →
      cs < text.length →
      ∀ (fuel : Nat) (start : Int), start ≤ 0 →
        splitAux text cs ov fuel start = none) := by
  constructor
  · intro hlen
    unfold split_text_into_chunks
    rw [if_pos hlen]
  · intro hcs hfree hlong
    have hdot : '.' ∉ text := fun hmem => (hfree '.' hmem).1 rfl
    have hbang : '!' ∉ text := fun hmem => (hfree '!' hmem).2.1 rfl
    have hq : '?' ∉ text := fun hmem => (hfree '?' hmem).2.2.1 rfl
    have hnl : '\n' ∉ text := fun hmem => (hfree '\n' hmem).2.2.2 rfl
    -- one iteration from any start ≤ 0 lands at a new start ≤ 0
    have hstep : ∀ start : Int, start ≤ 0 → (splitStep text cs ov start).1 ≤ 0 := by
      intro start hs0
      show splitIterEnd text cs start - (ov : Int) ≤ 0
      have hEnd : splitIterEnd text cs start ≤ (ov : Int) := by
        simp only [splitIterEnd]
        rw [if_pos (by omega)]
        rw [pyRfind_of_not_mem _ _ hdot]
        by_cases hneg : (-1 : Int) > start
        · rw [if_pos hneg]
          omega
        · rw [if_neg hneg]
          have hmatch : (['!', '?', '\n'].findSome? (fun punct =>
              let p := pyRfind text punct (max (start + (cs : Int) - 100) start)
                (start + (cs : Int))
              if p > start then some (p + 1) else none)) = none := by
            simp only [List.findSome?_cons, List.findSome?_nil,
              pyRfind_of_not_mem _ _ hbang, pyRfind_of_not_mem _ _ hq,
              pyRfind_of_not_mem _ _ hnl, if_neg hneg]
          rw [hmatch]
          show start + (cs : Int) ≤ (ov : Int)
          omega
      omega
    intro fuel
    induction fuel with
    | zero => intro start hs0; rfl
    | succ n ih =>
      intro start hs0
      rw [splitAux_succ]
      rw [if_pos (by omega)]
      rw [ih (splitStep text cs ov start).1 (hstep start hs0)]

/-- Witness for `invalid_overlap_accepted_or_diverges` at
`chunk_size = overlap = 1`: the two-character text `"ab"` makes the
loop run forever (here checked for the initial state with fuel 5),
while the one-character page is chunked normally. -/
theorem invalid_overlap_accepted_or_diverges_witness :
    (1 : Nat) ≤ 1 ∧
    (("ab".data.length ≤ 1 → split_text_into_chunks ("ab".data) 1 1 = some ["ab".data]) ∧
      (0 < 1 →
        (∀ c ∈ "ab".data, c ≠ '.' ∧ c ≠ '!' ∧ c ≠ '?' ∧ c ≠ '\n') →
        1 < "ab".data.length →
        ∀ (fuel : Nat) (start : Int), start ≤ 0 →
          splitAux ("ab".data) 1 1 fuel start = none)) :=
  ⟨by decide, invalid_overlap_accepted_or_diverges ("ab".data) 1 1 (by decide)⟩

/-! ### Claim C6 -/

/-- C6, amended: for `chunk_size > 0` with `overlap = 0` or
`overlap + 100 ≤ chunk_size` (the regime in which the window always
advances — see `chunking_window_can_stall` for why the full valid range
misbehaves), whenever the splitter returns, every NON-WHITESPACE
character of the page text appears in at least one produced chunk, and
no chunk ever exceeds `chunk_size` characters (so in particular the
sentence-boundary proviso of the claim is never even needed).
Whitespace characters at window boundaries can be dropped by `strip`,
see `chunker_drops_boundary_space`. -/
theorem chunker_covers_nonspace_and_bounds_chunks (text : List Char) (cs ov : Nat)
    (hcs : 0 < cs) (hov : ov = 0 ∨ ov + 100 ≤ cs) (res : List (List Char))
    (hres : split_text_into_chunks text cs ov = some res) :
    (∀ (i : Nat) (hi : i < text.length), isPySpace text[i] = false →
      ∃ c ∈ res, text[i] ∈ c) ∧
    (∀ c ∈ res, c.length ≤ cs) := by
  unfold split_text_into_chunks at hres
  by_cases hlen : text.length ≤ cs
  · rw [if_pos hlen] at hres
    have hr : res = [text] := (Option.some_inj.1 hres).symm
    subst hr
    constructor
    · intro i hi _
      exact ⟨text, List.mem_singleton_self text, List.getElem_mem hi⟩
    · intro c hc
      rw [List.mem_singleton.1 hc]
      exact le_trans hlen le_rfl
  · rw [if_neg hlen] at hres
    constructor
    · intro i hi hsp
      exact splitAux_covers text cs ov hcs hov (text.length + 1) 0 res hres le_rfl
        i hi (by omega) hsp
    · exact splitAux_chunk_le text cs ov hcs hov (text.length + 1) 0 res hres le_rfl

/-- Witness for `chunker_covers_nonspace_and_bounds_chunks` on the
8-character text `"ab cd ef"` with `chunk_size = 5`, `overlap = 0`,
which splits into `["ab cd", "ef"]`. -/
theorem chunker_covers_nonspace_and_bounds_chunks_witness :
    0 < 5 ∧ ((0 : Nat) = 0 ∨ 0 + 100 ≤ 5) ∧
    split_text_into_chunks ("ab cd ef".data) 5 0 = some ["ab cd".data, "ef".data] ∧
    ((∀ (i : Nat) (hi : i < "ab cd ef".data.length),
        isPySpace ("ab cd ef".data)[i] = false →
        ∃ c ∈ ["ab cd".data, "ef".data], "ab cd ef".data[i] ∈ c) ∧
      (∀ c ∈ ["ab cd".data, "ef".data], c.length ≤ 5)) :=
  ⟨by decide, Or.inl rfl, by decide,
    chunker_covers_nonspace_and_bounds_chunks ("ab cd ef".data) 5 0 (by decide)
      (Or.inl rfl) ["ab cd".data, "ef".data] (by decide)⟩

/-- Counterexample to C6 as stated: with the valid configuration
`chunk_size = 5`, `overlap = 0` on a page whose joined text is
`"aaaaa bbbb"`, the space at position 5 lies at a window boundary, is
stripped from both produced chunks, and hence appears in NO produced
chunk — characters can be silently lost. -/
theorem chunker_drops_boundary_space :
    chunk_text ⟨"t".data, [⟨1, ["aaaaa".data, "bbbb".data]⟩], [], 1⟩ 5 0 =
      some [⟨"chunk_0", "aaaaa".data, 1, 0, ⟨"Page 1", 1, 5, "t".data, 2⟩⟩,
            ⟨"chunk_1", "bbbb".data, 1, 1, ⟨"Page 1", 1, 4, "t".data, 2⟩⟩] ∧
    (pageText ⟨"t".data, [⟨1, ["aaaaa".data, "bbbb".data]⟩], [], 1⟩ 1).get? 5 =
      some ' ' ∧
    ' ' ∉ "aaaaa".data ∧ ' ' ∉ "bbbb".data := by
  refine ⟨?_, ?_, ?_, ?_⟩ <;> decide

/-! ### Claim C1 -/

/-- C1 evaluated at the failing input: on an index built from 4 chunks,
`search_similar_chunks(query, top_k = 10)` returns 10 results, not 4 —
faiss pads the 6 missing slots with label `-1` and distance `-FLT_MAX`,
the guard `idx < len(chunks)` does not exclude `-1`, and Python's
`chunks[-1]` resolves to the LAST chunk, so the 4th chunk is returned
seven times. -/
theorem search_topk_overflow_returns_duplicates :
    create_embeddings encC1 chunksC1 = Except.ok vsC1 ∧
    (search_similar_chunks encC1 vsC1 ("q".data) 10).length = 10 ∧
    (search_similar_chunks encC1 vsC1 ("q".data) 10).map (fun r => r.1.id) =
      ["c0", "c1", "c2", "c3", "c3", "c3", "c3", "c3", "c3", "c3"] ∧
    (search_similar_chunks encC1 vsC1 ("q".data) 10).length ≠ chunksC1.length := by
  refine ⟨by with_unfolding_all rfl, ?_, ?_, ?_⟩ <;> with_unfolding_all decide

/-! ### Claim C4 -/

/-- C4: persisting a vector store and loading it back yields a store
whose `search_similar_chunks` results are identical to the original for
every query and every `top_k` — both files carry their values verbatim
and the service reuses its own embedding model on load. -/
theorem vector_store_roundtrip_preserves_queries
    (encodeNorm : List Char → List ℚ) (dim : Nat) (vs : VectorStore)
    (q : List Char) (topK : Nat) :
    ∃ vs' : VectorStore,
      load_vector_store (some (save_vector_store dim vs).1)
        (some (save_vector_store dim vs).2) = Except.ok vs' ∧
      search_similar_chunks encodeNorm vs' q topK =
        search_similar_chunks encodeNorm vs q topK :=
  ⟨vs, rfl, rfl⟩

/-! ### Claim C5 -/

/-- Counterexample to C5: loading a 2-vector index file next to a
1-chunk companion file succeeds silently — `load_vector_store` performs
no consistency check and returns an inconsistent store instead of
failing with `CorruptIndexError` (which the repository never defines). -/
theorem load_accepts_mismatched_files :
    load_vector_store (some [[1], [0]]) (some ⟨[chunkW], 7⟩) =
      Except.ok ⟨[[1], [0]], [chunkW]⟩ ∧
    ([[1], [0]] : List (List ℚ)).length ≠ [chunkW].length := by
  exact ⟨rfl, by decide⟩

/-- C5, amended: `load_vector_store` never validates anything: any pair
of present files loads successfully regardless of their mutual
consistency, and a missing file surfaces the underlying file-system /
deserialisation error, not a `CorruptIndexError` (no such class
exists in the repository). -/
theorem load_never_validates (idx : List (List ℚ)) (cf : SavedChunksFile) :
    load_vector_store (some idx) (some cf) = Except.ok ⟨idx, cf.chunks⟩ ∧
    (∀ c : Option SavedChunksFile,
      load_vector_store none c = Except.error LoadError.fileNotFound) ∧
    load_vector_store (some idx) none = Except.error LoadError.fileNotFound :=
  ⟨rfl, fun _ => rfl, rfl⟩

/-! ### Claim C8 -/

instance : IsTotal (Chunk × ℚ) chronoLe :=
  ⟨by intro a b; unfold chronoLe; omega⟩

instance : IsTrans (Chunk × ℚ) chronoLe :=
  ⟨by intro a b c; unfold chronoLe; omega⟩

/-- C8, amended for the backend implementation: the candidate list the
backend hands onward is the query result re-sorted by
`(page_number, chunk_index)` ascending — a permutation of the
similarity-selected candidates in fully chronological order, so the
similarity score influences only membership, never the final order.
(The legacy implementation does not re-sort; see
`legacy_context_not_chronological`.) -/
theorem backend_candidates_chronologically_sorted (l : List (Chunk × ℚ)) :
    List.Sorted chronoLe (backendSortCandidates l) ∧
    (backendSortCandidates l).Perm l ∧
    backendContextChunks l = (backendSortCandidates l).take 14 :=
  ⟨List.sorted_insertionSort chronoLe l, List.perm_insertionSort chronoLe l, rfl⟩

/-- Counterexample to C8 as stated: in the legacy implementation
(src/rag_system.py), the chunks handed to `_prepare_context` stay in
descending-score order — here the page-2 chunk scores higher and is
handed to generation BEFORE the page-1 chunk, so the sequence is not
sorted by `(page, position_in_page)`. -/
theorem legacy_context_not_chronological :
    (search_similar_chunks encC8 vsC8 ("q".data) 2).map
      (fun r => (r.1.page_number, r.1.chunk_index)) = [(2, 0), (1, 0)] ∧
    (flatContextChunks (search_similar_chunks encC8 vsC8 ("q".data) 2)).map
      (fun r => (r.1.page_number, r.1.chunk_index)) = [(2, 0), (1, 0)] ∧
    ¬ List.Sorted chronoLe (flatContextChunks (search_similar_chunks encC8 vsC8 ("q".data) 2)) := by
  refine ⟨?_, ?_, ?_⟩ <;> with_unfolding_all decide

/-! ### Claim C10 -/

theorem foldl_append_bounded (maxS : Nat) :
    ∀ (R : List (String × Nat)) (A : List String),
      R.foldl (fun acc t => if maxS ≤ acc.length then acc else acc ++ [t.1]) A =
        A ++ ((R.map (fun p => p.1)).take (maxS - A.length)) := by
  intro R
  induction R with
  | nil => intro A; simp
  | cons t R ih =>
    intro A
    simp only [List.foldl_cons]
    by_cases h : maxS ≤ A.length
    · rw [if_pos h, ih]
      have h0 : maxS - A.length = 0 := by omega
      rw [h0, List.take_zero, List.append_nil, List.take_zero, List.append_nil]
    · rw [if_neg h, ih]
      have hlen : (A ++ [t.1]).length = A.length + 1 := by simp
      rw [hlen]
      have hsub : maxS - A.length = (maxS - (A.length + 1)) + 1 := by omega
      rw [List.map_cons, hsub, List.take_succ_cons]
      rw [List.append_assoc]
      rfl

/-- C10: the ordering loop of `generate_outline` computes exactly the
specification's `assign_outline_order`: found labels in canonical order
first, then the remaining found labels sorted (stably) by earliest
observed page, truncated to `max_sections`. -/
theorem outline_order_refines_spec (canonical : List String) (maxS : Nat)
    (cands : List (String × Nat)) :
    orderTopics canonical maxS cands = assignOutlineOrderSpec canonical maxS cands := by
  simp only [orderTopics, assignOutlineOrderSpec]
  by_cases h : (orderedCanonical canonical cands).length < maxS
  · rw [if_pos h, foldl_append_bounded]
    rw [List.take_append_eq_append_take, List.take_append_eq_append_take]
    rw [List.take_of_length_le (le_of_lt h)]
    congr 1
    exact List.take_of_length_le (List.length_take_le _ _)
  · rw [if_neg h]
    rw [List.take_append_eq_append_take]
    have h0 : maxS - (orderedCanonical canonical cands).length = 0 := by omega
    rw [h0, List.take_zero, List.append_nil]

/-! ### Claim C9: word splitting lemmas -/

theorem modifyHead_comp (f g : List Char → List Char) (l : List (List Char)) :
    List.modifyHead f (List.modifyHead g l) = List.modifyHead (fun x => f (g x)) l := by
  cases l <;> rfl

theorem splitOnP_pieces_false {p : Char → Bool} :
    ∀ (s : List Char), ∀ w ∈ List.splitOnP p s, ∀ c ∈ w, p c = false := by
  intro s
  induction s with
  | nil =>
    intro w hw c hc
    rw [List.splitOnP_nil, List.mem_singleton] at hw
    subst hw
    exact absurd hc (List.not_mem_nil c)
  | cons a t ih =>
    intro w hw c hc
    rw [List.splitOnP_cons] at hw
    by_cases hpa : p a = true
    · rw [if_pos hpa] at hw
      rcases List.mem_cons.1 hw with rfl | hw'
      · exact absurd hc (List.not_mem_nil c)
      · exact ih w hw' c hc
    · rw [if_neg hpa] at hw
      rcases hsp : List.splitOnP p t with _ | ⟨h, t'⟩
      · exact absurd hsp (List.splitOnP_ne_nil p t)
      · rw [hsp] at hw
        rcases List.mem_cons.1 hw with rfl | hw'
        · rcases List.mem_cons.1 hc with rfl | hch
          · exact Bool.eq_false_iff.2 hpa
          · exact ih h (hsp ▸ List.mem_cons_self h t') c hch
        · exact ih w (hsp ▸ List.mem_cons_of_mem h hw') c hc

theorem splitRuns_words_keep {keep : Char → Bool} {s : List Char} :
    ∀ w ∈ splitRuns keep s, w ≠ [] ∧ ∀ c ∈ w, keep c = true := by
  intro w hw
  unfold splitRuns at hw
  rw [List.mem_filter] at hw
  obtain ⟨hsp, hne⟩ := hw
  refine ⟨by simpa using hne, fun c hc => ?_⟩
  have := splitOnP_pieces_false s w hsp c hc
  rcases hk : keep c with _ | _
  · rw [hk] at this
    exact absurd this (by simp)
  · rfl

theorem splitOnP_append_keep {p : Char → Bool} :
    ∀ (w r : List Char), (∀ c ∈ w, p c = false) →
      List.splitOnP p (w ++ r) = List.modifyHead (fun h => w ++ h) (List.splitOnP p r) := by
  intro w
  induction w with
  | nil =>
    intro r _
    rw [List.nil_append]
    rcases hsp : List.splitOnP p r with _ | ⟨h, t⟩
    · exact absurd hsp (List.splitOnP_ne_nil p r)
    · rfl
  | cons a w' ih =>
    intro r hall
    have hpa : p a = false := hall a (List.mem_cons_self a w')
    rw [List.cons_append, List.splitOnP_cons, if_neg (by rw [hpa]; simp)]
    rw [ih r (fun c hc => hall c (List.mem_cons_of_mem a hc))]
    rw [modifyHead_comp]
    rfl

theorem splitRuns_joinSpace {keep : Char → Bool} (hsep : keep ' ' = false) :
    ∀ ws : List (List Char),
      (∀ w ∈ ws, w ≠ [] ∧ ∀ c ∈ w, keep c = true) →
      splitRuns keep (joinSpace ws) = ws := by
  intro ws
  induction ws with
  | nil => intro _; rfl
  | cons w ws' ih =>
    intro hgood
    have hw := hgood w (List.mem_cons_self w ws')
    have hwfalse : ∀ c ∈ w, (!keep c) = false := fun c hc => by
      rw [(hw.2 c hc)]
      rfl
    rcases ws' with _ | ⟨w2, ws''⟩
    · show splitRuns keep (joinSpace [w]) = [w]
      unfold splitRuns joinSpace
      have := splitOnP_append_keep w [] hwfalse
      rw [List.append_nil] at this
      rw [this]
      rw [show List.splitOnP (fun c => !keep c) [] = [[]] from List.splitOnP_nil _]
      show List.filter (fun x => !x.isEmpty) [w ++ []] = [w]
      rw [List.append_nil]
      rw [List.filter_cons]
      rw [if_pos (by
        rcases hx : w with _ | _
        · exact absurd hx hw.1
        · rfl)]
      rfl
    · show splitRuns keep (w ++ ' ' :: joinSpace (w2 :: ws'')) = w :: w2 :: ws''
      unfold splitRuns
      rw [splitOnP_append_keep w (' ' :: joinSpace (w2 :: ws'')) hwfalse]
      rw [List.splitOnP_cons, if_pos (by rw [hsep]; rfl)]
      show List.filter (fun x => !x.isEmpty)
        ((w ++ []) :: List.splitOnP (fun c => !keep c) (joinSpace (w2 :: ws''))) =
          w :: w2 :: ws''
      rw [List.append_nil, List.filter_cons]
      rw [if_pos (by
        rcases hx : w with _ | _
        · exact absurd hx hw.1
        · rfl)]
      have hrest := ih (fun u hu => hgood u (List.mem_cons_of_mem w hu))
      unfold splitRuns at hrest
      rw [hrest]

theorem pyWords_joinSpace_pyWords (s : List Char) :
    pyWords (joinSpace (pyWords s)) = pyWords s := by
  unfold pyWords
  exact splitRuns_joinSpace (by decide) (splitRuns (fun c => !isPySpace c) s)
    (fun w hw => splitRuns_words_keep w hw)

/-! ### Claim C9: counter lemmas -/

theorem counterIncr_keys (k' : List Char) (p : List Char × Nat) :
    (if p.1 == k' then (p.1, p.2 + 1) else p).1 = p.1 := by
  split <;> rfl

theorem find?_map_incr (c : List (List Char × Nat)) (k k' : List Char) :
    List.find? (fun p => p.1 == k)
        (c.map (fun p => if p.1 == k' then (p.1, p.2 + 1) else p)) =
      (List.find? (fun p => p.1 == k) c).map
        (fun p => if p.1 == k' then (p.1, p.2 + 1) else p) := by
  rw [List.find?_map]
  have hcomp : ((fun p : List Char × Nat => p.1 == k) ∘
      (fun p : List Char × Nat => if p.1 == k' then (p.1, p.2 + 1) else p)) =
      (fun p : List Char × Nat => p.1 == k) := by
    funext q
    show ((if q.1 == k' then (q.1, q.2 + 1) else q).1 == k) = (q.1 == k)
    rw [counterIncr_keys]
  rw [hcomp]

theorem counterGet_incr_self (c : List (List Char × Nat)) (k : List Char) :
    counterGet (counterIncr c k) k = counterGet c k + 1 := by
  unfold counterGet counterIncr
  by_cases hf : (List.find? (fun p : List Char × Nat => p.1 == k) c).isSome
  · rw [if_pos hf, find?_map_incr]
    obtain ⟨a, ha⟩ := Option.isSome_iff_exists.1 hf
    rw [ha]
    have hak := @List.find?_some (List Char × Nat) (fun p => p.1 == k) a c ha
    simp only at hak
    show ((some (if a.1 == k then (a.1, a.2 + 1) else a)).map (fun p => p.2)).getD 0 = _
    rw [if_pos hak]
    rfl
  · rw [if_neg hf]
    have hnone : List.find? (fun p : List Char × Nat => p.1 == k) c = none :=
      Option.not_isSome_iff_eq_none.1 hf
    rw [List.find?_append, hnone]
    have hone : List.find? (fun p : List Char × Nat => p.1 == k) [(k, 1)] = some (k, 1) := by
      have hkk : (((k, 1) : List Char × Nat).1 == k) = true := by simp
      simp [List.find?, hkk]
    rw [hone]
    rfl

theorem counterGet_incr_mono (c : List (List Char × Nat)) (k k' : List Char) :
    counterGet c k ≤ counterGet (counterIncr c k') k := by
  by_cases hk : k = k'
  · subst hk
    rw [counterGet_incr_self]
    omega
  · have hkeep : counterGet (counterIncr c k') k = counterGet c k := by
      unfold counterGet counterIncr
      by_cases hf : (List.find? (fun p : List Char × Nat => p.1 == k') c).isSome
      · rw [if_pos hf, find?_map_incr]
        rcases ha : List.find? (fun p : List Char × Nat => p.1 == k) c with _ | a
        · rfl
        · have hak := @List.find?_some (List Char × Nat) (fun p => p.1 == k) a c ha
          simp only at hak
          have hak' : (a.1 == k') = false := by
            rcases hx : (a.1 == k') with _ | _
            · rfl
            · exact absurd ((eq_of_beq hak).symm.trans (eq_of_beq hx)) hk
          show ((some (if a.1 == k' then (a.1, a.2 + 1) else a)).map (fun p => p.2)).getD 0 = _
          rw [if_neg (by rw [hak']; exact fun hcon => Bool.false_ne_true hcon)]
      · rw [if_neg hf, List.find?_append]
        rcases ha : List.find? (fun p : List Char × Nat => p.1 == k) c with _ | a
        · have hone : List.find? (fun p : List Char × Nat => p.1 == k) [(k', 1)] = none := by
            have hkk : (((k', 1) : List Char × Nat).1 == k) = false := by
              rcases hx : ((k' : List Char) == k) with _ | _
              · rfl
              · exact absurd (eq_of_beq hx).symm hk
            simp [List.find?, hkk]
          rw [hone]
          rfl
        · rfl
    omega

theorem counterGet_addAll_mono (gs : List (List Char)) :
    ∀ (c : List (List Char × Nat)) (k : List Char),
      counterGet c k ≤ counterGet (counterAddAll c gs) k := by
  induction gs with
  | nil => intro c k; exact le_rfl
  | cons g gs' ih =>
    intro c k
    show counterGet c k ≤ counterGet (List.foldl _ (if isStopwordNgram g then c else counterIncr c g) gs') k
    refine le_trans ?_ (ih _ k)
    by_cases hs : isStopwordNgram g = true
    · rw [if_pos hs]
    · rw [if_neg hs]
      exact counterGet_incr_mono c k g

theorem counterGet_addAll_mem (gs : List (List Char)) :
    ∀ (c : List (List Char × Nat)) (g : List Char), g ∈ gs →
      isStopwordNgram g = false → 1 ≤ counterGet (counterAddAll c gs) g := by
  induction gs with
  | nil => intro c g hg _; exact absurd hg (List.not_mem_nil g)
  | cons g0 gs' ih =>
    intro c g hg hns
    show 1 ≤ counterGet (List.foldl _ (if isStopwordNgram g0 then c else counterIncr c g0) gs') g
    rcases List.mem_cons.1 hg with rfl | hmem
    · rw [if_neg (by rw [hns]; exact fun hcon => Bool.false_ne_true hcon)]
      refine le_trans ?_ (counterGet_addAll_mono gs' (counterIncr c g) g)
      rw [counterGet_incr_self]
      omega
    · exact ih _ g hmem hns

/-! ### Claim C9 -/

/-- C9, amended: once a candidate with at least one tracked (not
stop-word-dominated) n-gram has been accepted, resubmitting the exact
same string to `_deduplicate_advanced` is rejected by the n-gram check:
its overlap ratio is exactly 1 > 0.30, since every one of its n-grams
was just recorded.  (A candidate whose 2-4-grams are ALL stop-word
dominated escapes this check — see
`novelty_accepts_stopword_resubmission`.) -/
theorem novelty_rejects_exact_resubmission
    (seqSim : List Char → List Char → ℚ) (st : RAGState) (s : List Char)
    (hng : extractNgrams (joinSpace (pyWords (toLowerStr s))) ≠ []) :
    calculateNgramOverlap (acceptBullet st s).coveredNgrams
        (extractNgrams (joinSpace (pyWords (toLowerStr s)))) = 1 ∧
    deduplicateAdvanced seqSim (acceptBullet st s) [s] = [] := by
  have hcov : (acceptBullet st s).coveredNgrams =
      counterAddAll st.coveredNgrams (allNgrams (pyWords (toLowerStr s))) := rfl
  have hall : ∀ g ∈ extractNgrams (joinSpace (pyWords (toLowerStr s))),
      decide (1 ≤ counterGet (acceptBullet st s).coveredNgrams g) = true := by
    intro g hg
    unfold extractNgrams at hg
    rw [pyWords_joinSpace_pyWords] at hg
    have hg' := List.mem_dedup.1 hg
    rw [List.mem_filter] at hg'
    obtain ⟨hmem, hflt⟩ := hg'
    have hns : isStopwordNgram g = false := by
      rcases hx : isStopwordNgram g with _ | _
      · rfl
      · rw [hx] at hflt
        exact absurd hflt (by simp)
    rw [hcov]
    exact decide_eq_true
      (counterGet_addAll_mem (allNgrams (pyWords (toLowerStr s))) st.coveredNgrams g hmem hns)
  have hcnt : (extractNgrams (joinSpace (pyWords (toLowerStr s)))).countP
      (fun g => 1 ≤ counterGet (acceptBullet st s).coveredNgrams g) =
      (extractNgrams (joinSpace (pyWords (toLowerStr s)))).length :=
    List.countP_eq_length.2 hall
  have hlen0 : (extractNgrams (joinSpace (pyWords (toLowerStr s)))).length ≠ 0 := by
    intro hzero
    exact hng (List.eq_nil_of_length_eq_zero hzero)
  have hovl : calculateNgramOverlap (acceptBullet st s).coveredNgrams
      (extractNgrams (joinSpace (pyWords (toLowerStr s)))) = 1 := by
    unfold calculateNgramOverlap
    rw [if_neg (fun hemp => hng (List.isEmpty_iff.1 hemp))]
    rw [hcnt]
    exact div_self (by exact_mod_cast hlen0)
  refine ⟨hovl, ?_⟩
  have hgt : calculateNgramOverlap (acceptBullet st s).coveredNgrams
      (extractNgrams (joinSpace (pyWords (toLowerStr s)))) > 3 / 10 := by
    rw [hovl]
    norm_num
  simp only [deduplicateAdvanced, List.foldl_cons, List.foldl_nil]
  rw [if_pos hgt]

/-- Witness for `novelty_rejects_exact_resubmission`: the candidate
`"unique interface prototype feedback"` has tracked n-grams; after
acceptance its resubmission is filtered out (with overlap ratio 1). -/
theorem novelty_rejects_exact_resubmission_witness :
    extractNgrams (joinSpace (pyWords (toLowerStr
        "unique interface prototype feedback".data))) ≠ [] ∧
    (calculateNgramOverlap
        (acceptBullet initialRAGState ("unique interface prototype feedback".data)).coveredNgrams
        (extractNgrams (joinSpace (pyWords (toLowerStr
          "unique interface prototype feedback".data)))) = 1 ∧
      deduplicateAdvanced (fun _ _ => 0)
        (acceptBullet initialRAGState ("unique interface prototype feedback".data))
        ["unique interface prototype feedback".data] = []) :=
  ⟨by decide,
    novelty_rejects_exact_resubmission (fun _ _ => 0) initialRAGState
      "unique interface prototype feedback".data (by decide)⟩

/-- Counterexample to C9 as stated: the candidate
`"this is to be that"` consists entirely of stop words, so it
contributes no tracked n-grams and an empty fingerprint.  It is
accepted by `_deduplicate_advanced`, and after its acceptance is
recorded, submitting the EXACT same string again is accepted a second
time — no layer of the filter rejects it. -/
theorem novelty_accepts_stopword_resubmission :
    deduplicateAdvanced (fun _ _ => 0) initialRAGState
      ["this is to be that".data] = ["this is to be that".data] ∧
    deduplicateAdvanced (fun _ _ => 0)
      (acceptBullet initialRAGState ("this is to be that".data))
      ["this is to be that".data] = ["this is to be that".data] := by
  refine ⟨?_, ?_⟩ <;> with_unfolding_all decide

/-! ### Claim C7: helper lemmas -/

theorem clampIdx_natCast {len : Nat} (n : Nat) (h : n ≤ len) :
    clampIdx len (n : Int) = n := by
  rw [clampIdx_of_nonneg _ (by exact_mod_cast Nat.zero_le n)]
  simp
  omega

theorem clampIdx_natCast_ge {len : Nat} (n : Nat) (h : len ≤ n) :
    clampIdx len (n : Int) = len := by
  rw [clampIdx_of_nonneg _ (by exact_mod_cast Nat.zero_le n)]
  simp
  omega

theorem pySlice_natCast_take (s : List Char) (n : Nat) (h : n ≤ s.length) :
    pySlice s 0 (n : Int) = s.take n := by
  unfold pySlice
  rw [show ((0 : Int)) = ((0 : Nat) : Int) from rfl]
  rw [clampIdx_natCast 0 (Nat.zero_le _), clampIdx_natCast n h, List.drop_zero]

theorem pySlice_natCast_drop (s : List Char) (m n : Nat) (hm : m ≤ s.length)
    (hn : s.length ≤ n) : pySlice s (m : Int) (n : Int) = s.drop m := by
  unfold pySlice
  rw [clampIdx_natCast m hm, clampIdx_natCast_ge n hn,
    List.take_of_length_le le_rfl]

theorem isEmpty_false_of_length_ne_zero {l : List Char} (h : l.length ≠ 0) :
    l.isEmpty = false := by
  cases l with
  | nil => exact absurd rfl h
  | cons a t => rfl

theorem pySlice_subset (s : List Char) (a b : Int) : ∀ c ∈ pySlice s a b, c ∈ s := by
  intro c hc
  unfold pySlice at hc
  exact List.take_subset _ _ (List.drop_subset _ _ hc)

theorem splitIterEnd_of_no_sentence (text : List Char) (cs : Nat) {start : Int}
    (hfree : ∀ c ∈ text, c ≠ '.' ∧ c ≠ '!' ∧ c ≠ '?' ∧ c ≠ '\n')
    (h0 : 0 ≤ start) : splitIterEnd text cs start = start + (cs : Int) := by
  have hdot : '.' ∉ text := fun hmem => (hfree '.' hmem).1 rfl
  have hbang : '!' ∉ text := fun hmem => (hfree '!' hmem).2.1 rfl
  have hq : '?' ∉ text := fun hmem => (hfree '?' hmem).2.2.1 rfl
  have hnl : '\n' ∉ text := fun hmem => (hfree '\n' hmem).2.2.2 rfl
  simp only [splitIterEnd]
  by_cases hend : start + (cs : Int) < (text.length : Int)
  · rw [if_pos hend]
    rw [pyRfind_of_not_mem _ _ hdot]
    have hneg : ¬ ((-1 : Int) > start) := by omega
    rw [if_neg hneg]
    have hmatch : (['!', '?', '\n'].findSome? (fun punct =>
        let p := pyRfind text punct (max (start + (cs : Int) - 100) start)
          (start + (cs : Int))
        if p > start then some (p + 1) else none)) = none := by
      simp only [List.findSome?_cons, List.findSome?_nil,
        pyRfind_of_not_mem _ _ hbang, pyRfind_of_not_mem _ _ hq,
        pyRfind_of_not_mem _ _ hnl, if_neg hneg]
    rw [hmatch]
  · rw [if_neg hend]

theorem split3000 (t2 : List Char) (h2 : t2.length = 3000)
    (hg : ∀ c ∈ t2, isPySpace c = false ∧ c ≠ '.' ∧ c ≠ '!' ∧ c ≠ '?' ∧ c ≠ '\n') :
    split_text_into_chunks t2 2000 200 = some [t2.take 2000, t2.drop 1800] := by
  have hfree : ∀ c ∈ t2, c ≠ '.' ∧ c ≠ '!' ∧ c ≠ '?' ∧ c ≠ '\n' :=
    fun c hc => (hg c hc).2
  have hws : ∀ c ∈ t2, isPySpace c = false := fun c hc => (hg c hc).1
  have hiter0 : splitIterEnd t2 2000 0 = 2000 := by
    have h := splitIterEnd_of_no_sentence t2 2000 hfree (le_refl (0 : Int))
    rw [h]
    norm_num
  have hiter1 : splitIterEnd t2 2000 1800 = 3800 := by
    have h := splitIterEnd_of_no_sentence t2 2000 hfree
      (by norm_num : (0 : Int) ≤ 1800)
    rw [h]
    norm_num
  have hslice0 : pySlice t2 0 2000 = t2.take 2000 := by
    unfold pySlice
    have ha : clampIdx t2.length 0 = 0 := by
      unfold clampIdx
      rw [if_neg (by norm_num)]
      simp
    have hb : clampIdx t2.length 2000 = 2000 := by
      unfold clampIdx
      rw [if_neg (by norm_num)]
      rw [h2]
      simp
    rw [ha, hb, List.drop_zero]
  have hslice1 : pySlice t2 1800 3800 = t2.drop 1800 := by
    unfold pySlice
    have ha : clampIdx t2.length 1800 = 1800 := by
      unfold clampIdx
      rw [if_neg (by norm_num)]
      rw [h2]
      simp
    have hb : clampIdx t2.length 3800 = t2.length := by
      unfold clampIdx
      rw [if_neg (by norm_num)]
      rw [h2]
      simp
    rw [ha, hb, List.take_of_length_le le_rfl]
  have hstep0fst : (splitStep t2 2000 200 0).1 = 1800 := by
    show splitIterEnd t2 2000 0 - ((200 : Nat) : Int) = 1800
    rw [hiter0]
    norm_num
  have hstep1fst : (splitStep t2 2000 200 1800).1 = 3600 := by
    show splitIterEnd t2 2000 1800 - ((200 : Nat) : Int) = 3600
    rw [hiter1]
    norm_num
  have hstep0snd : (splitStep t2 2000 200 0).2 = some (t2.take 2000) := by
    show (if (pyStrip (pySlice t2 0 (splitIterEnd t2 2000 0))).isEmpty then none
        else some (pyStrip (pySlice t2 0 (splitIterEnd t2 2000 0)))) = _
    rw [hiter0, hslice0,
      pyStrip_of_no_space (fun c hc => hws c (List.take_subset _ _ hc)),
      isEmpty_false_of_length_ne_zero
        (by rw [List.length_take, h2]; norm_num)]
    rfl
  have hstep1snd : (splitStep t2 2000 200 1800).2 = some (t2.drop 1800) := by
    show (if (pyStrip (pySlice t2 1800 (splitIterEnd t2 2000 1800))).isEmpty then none
        else some (pyStrip (pySlice t2 1800 (splitIterEnd t2 2000 1800)))) = _
    rw [hiter1, hslice1,
      pyStrip_of_no_space (fun c hc => hws c (List.drop_subset _ _ hc)),
      isEmpty_false_of_length_ne_zero
        (by rw [List.length_drop, h2]; norm_num)]
    rfl
  unfold split_text_into_chunks
  rw [if_neg (by rw [h2]; norm_num)]
  rw [show t2.length + 1 = 3000 + 1 from by rw [h2]]
  rw [splitAux_succ]
  rw [if_pos (show (0 : Int) < (t2.length : Int) from by rw [h2]; norm_num)]
  rw [hstep0fst]
  rw [show (3000 : Nat) = 2999 + 1 from rfl]
  rw [splitAux_succ]
  rw [if_pos (show (1800 : Int) < (t2.length : Int) from by rw [h2]; norm_num)]
  rw [hstep1fst]
  rw [show (2999 : Nat) = 2998 + 1 from rfl]
  rw [splitAux_succ]
  rw [if_neg (show ¬ ((3600 : Int) < (t2.length : Int)) from by rw [h2]; norm_num)]
  rw [hstep1snd, hstep0snd]

/-! ### Claim C7 -/

/-- C7: a 3-page document whose page texts have 50, 3000 and 50
characters (containing no whitespace and no sentence-terminal
characters, so that `strip` is the identity and no backward
sentence-boundary search relocates the cut), chunked with
`chunk_size = 2000`, `overlap = 200`, yields exactly 4 chunks: page 1
whole, page 2 split into its first 2000 characters and the 1200-character
tail starting at offset `2000 - 200 = 1800`, and page 3 whole. -/
theorem three_page_scenario_four_chunks (title t1 t2 t3 : List Char) (n : Nat)
    (h1 : t1.length = 50) (h2 : t2.length = 3000) (h3 : t3.length = 50)
    (hg1 : ∀ c ∈ t1, isPySpace c = false ∧ c ≠ '.' ∧ c ≠ '!' ∧ c ≠ '?' ∧ c ≠ '\n')
    (hg2 : ∀ c ∈ t2, isPySpace c = false ∧ c ≠ '.' ∧ c ≠ '!' ∧ c ≠ '?' ∧ c ≠ '\n')
    (hg3 : ∀ c ∈ t3, isPySpace c = false ∧ c ≠ '.' ∧ c ≠ '!' ∧ c ≠ '?' ∧ c ≠ '\n') :
    chunk_text ⟨title, [⟨1, [t1]⟩, ⟨2, [t2]⟩, ⟨3, [t3]⟩], [], n⟩ 2000 200 =
      some [⟨"chunk_0", t1, 1, 0, ⟨"Page 1", 1, t1.length, title, 1⟩⟩,
            ⟨"chunk_1", t2.take 2000, 2, 0, ⟨"Page 2", 2, (t2.take 2000).length, title, 2⟩⟩,
            ⟨"chunk_2", t2.drop 1800, 2, 1, ⟨"Page 2", 2, (t2.drop 1800).length, title, 2⟩⟩,
            ⟨"chunk_3", t3, 3, 0, ⟨"Page 3", 3, t3.length, title, 1⟩⟩] ∧
    (t2.take 2000).length = 2000 ∧ (t2.drop 1800).length = 1200 := by
  have hpt1 : pageText ⟨title, [⟨1, [t1]⟩, ⟨2, [t2]⟩, ⟨3, [t3]⟩], [], n⟩ 1 = t1 := rfl
  have hpt2 : pageText ⟨title, [⟨1, [t1]⟩, ⟨2, [t2]⟩, ⟨3, [t3]⟩], [], n⟩ 2 = t2 := rfl
  have hpt3 : pageText ⟨title, [⟨1, [t1]⟩, ⟨2, [t2]⟩, ⟨3, [t3]⟩], [], n⟩ 3 = t3 := rfl
  have hkeys : pageKeys ⟨title, [⟨1, [t1]⟩, ⟨2, [t2]⟩, ⟨3, [t3]⟩], [], n⟩ = [1, 2, 3] := rfl
  have hne1 : (pyStrip (pageText ⟨title, [⟨1, [t1]⟩, ⟨2, [t2]⟩, ⟨3, [t3]⟩], [], n⟩ 1)).isEmpty = false := by
    rw [hpt1, pyStrip_of_no_space (fun c hc => (hg1 c hc).1)]
    exact isEmpty_false_of_length_ne_zero (by rw [h1]; norm_num)
  have hne2 : (pyStrip (pageText ⟨title, [⟨1, [t1]⟩, ⟨2, [t2]⟩, ⟨3, [t3]⟩], [], n⟩ 2)).isEmpty = false := by
    rw [hpt2, pyStrip_of_no_space (fun c hc => (hg2 c hc).1)]
    exact isEmpty_false_of_length_ne_zero (by rw [h2]; norm_num)
  have hne3 : (pyStrip (pageText ⟨title, [⟨1, [t1]⟩, ⟨2, [t2]⟩, ⟨3, [t3]⟩], [], n⟩ 3)).isEmpty = false := by
    rw [hpt3, pyStrip_of_no_space (fun c hc => (hg3 c hc).1)]
    exact isEmpty_false_of_length_ne_zero (by rw [h3]; norm_num)
  have hsp1 : split_text_into_chunks
      (pageText ⟨title, [⟨1, [t1]⟩, ⟨2, [t2]⟩, ⟨3, [t3]⟩], [], n⟩ 1) 2000 200 = some [t1] := by
    rw [hpt1]
    unfold split_text_into_chunks
    rw [if_pos (by rw [h1]; norm_num)]
  have hsp2 : split_text_into_chunks
      (pageText ⟨title, [⟨1, [t1]⟩, ⟨2, [t2]⟩, ⟨3, [t3]⟩], [], n⟩ 2) 2000 200 =
      some [t2.take 2000, t2.drop 1800] := by
    rw [hpt2]
    exact split3000 t2 h2 hg2
  have hsp3 : split_text_into_chunks
      (pageText ⟨title, [⟨1, [t1]⟩, ⟨2, [t2]⟩, ⟨3, [t3]⟩], [], n⟩ 3) 2000 200 = some [t3] := by
    rw [hpt3]
    unfold split_text_into_chunks
    rw [if_pos (by rw [h3]; norm_num)]
  refine ⟨?_, by rw [List.length_take, h2]; omega, by rw [List.length_drop, h2]⟩
  unfold chunk_text
  rw [hkeys]
  simp only [chunkTextAux]
  rw [hne1, hne2, hne3, hsp1, hsp2, hsp3]
  with_unfolding_all rfl

/-- Witness for `three_page_scenario_four_chunks` at concrete page
texts of 50 `'a'`s, 3000 `'b'`s and 50 `'c'`s. -/
theorem three_page_scenario_four_chunks_witness :
    (List.replicate 50 'a').length = 50 ∧
    (List.replicate 3000 'b').length = 3000 ∧
    (List.replicate 50 'c').length = 50 ∧
    (chunk_text ⟨"doc".data, [⟨1, [List.replicate 50 'a']⟩,
        ⟨2, [List.replicate 3000 'b']⟩, ⟨3, [List.replicate 50 'c']⟩], [], 3⟩ 2000 200 =
      some [⟨"chunk_0", List.replicate 50 'a', 1, 0,
              ⟨"Page 1", 1, (List.replicate 50 'a').length, "doc".data, 1⟩⟩,
            ⟨"chunk_1", (List.replicate 3000 'b').take 2000, 2, 0,
              ⟨"Page 2", 2, ((List.replicate 3000 'b').take 2000).length, "doc".data, 2⟩⟩,
            ⟨"chunk_2", (List.replicate 3000 'b').drop 1800, 2, 1,
              ⟨"Page 2", 2, ((List.replicate 3000 'b').drop 1800).length, "doc".data, 2⟩⟩,
            ⟨"chunk_3", List.replicate 50 'c', 3, 0,
              ⟨"Page 3", 3, (List.replicate 50 'c').length, "doc".data, 1⟩⟩] ∧
      ((List.replicate 3000 'b').take 2000).length = 2000 ∧
      ((List.replicate 3000 'b').drop 1800).length = 1200) :=
  ⟨List.length_replicate 50 'a', List.length_replicate 3000 'b',
    List.length_replicate 50 'c',
    three_page_scenario_four_chunks ("doc".data) (List.replicate 50 'a')
      (List.replicate 3000 'b') (List.replicate 50 'c') 3
      (List.length_replicate 50 'a') (List.length_replicate 3000 'b')
      (List.length_replicate 50 'c')
      (fun c hc => by rw [List.eq_of_mem_replicate hc]; decide)
      (fun c hc => by rw [List.eq_of_mem_replicate hc]; decide)
      (fun c hc => by rw [List.eq_of_mem_replicate hc]; decide)⟩

end S2P

